import Mathlib

/-!
Shallow embedding of the value and syntax-tree core of `liquid-cpp`
(`src/common.h`): the `Variant` tagged value, the `Node` AST cell, and the
copy/move/assignment, coercion, comparison, hashing and truthiness
operations defined on them.  C++ `double` payloads are modelled as exact
rationals (`ℚ`), `long long` as `Int`, raw pointers and host `Variable`
handles as natural-number addresses (`0` = null).  A `STRING_VIEW` payload
is modelled as the address of its first byte together with the list of
characters it views (the bytes `string(view, len)` would materialize).
-/

namespace LiquidCpp

/-- Discriminant of `Variant` (`Variant::Type` in `common.h`). -/
inductive VType where
  | NIL
  | BOOL
  | FLOAT
  | INT
  | STRING
  | STRING_VIEW
  | ARRAY
  | VARIABLE
  | POINTER
deriving DecidableEq, Repr

/-- Logical value of a `Liquid::Variant`: the discriminant together with the
live payload of its union.  `strView` carries the view pointer and the viewed
characters; `varHandle` carries the host handle's pointer value. -/
inductive Variant where
  | nil
  | bool (b : Bool)
  | float (f : ℚ)
  | int (i : Int)
  | str (s : String)
  | strView (ptr : Nat) (chars : List Char)
  | array (elems : List Variant)
  | varHandle (h : Nat)
  | pointer (p : Nat)

/-- The `type` field a well-formed `Variant` carries for each payload. -/
def Variant.typeOf : Variant → VType
  | .nil => .NIL
  | .bool _ => .BOOL
  | .float _ => .FLOAT
  | .int _ => .INT
  | .str _ => .STRING
  | .strView _ _ => .STRING_VIEW
  | .array _ => .ARRAY
  | .varHandle _ => .VARIABLE
  | .pointer _ => .POINTER

/-- The `EFalsiness` flag `FALSY_0`. -/
def FALSY_0 : Nat := 1
/-- The `EFalsiness` flag `FALSY_EMPTY_STRING`. -/
def FALSY_EMPTY_STRING : Nat := 2
/-- The `EFalsiness` flag `FALSY_NIL`. -/
def FALSY_NIL : Nat := 4

/-- `Variant::isTruthy(EFalsiness)` from `common.h` lines 194-212, translated
case by case; the falsiness policy is the C enum bitmask as a natural
number. -/
def Variant.isTruthy (v : Variant) (falsiness : Nat) : Bool :=
  match v with
  | .bool b => b
  | .int i => !(decide (falsiness &&& FALSY_0 ≠ 0) && decide (i = 0))
  | .float f => !(decide (falsiness &&& FALSY_0 ≠ 0) && decide (f = 0))
  | .pointer p => !(decide (falsiness &&& FALSY_NIL ≠ 0) && decide (p = 0))
  | .nil => !(decide (falsiness &&& FALSY_NIL ≠ 0))
  | .str s => !(decide (falsiness &&& FALSY_EMPTY_STRING ≠ 0) && decide (s.length = 0))
  | _ => true

/-- Lexicographic byte comparison of two character lists; models
`std::string::operator<` (the source strings are ASCII, where byte order and
code-point order coincide). -/
def cppStrLt : List Char → List Char → Bool
  | _, [] => false
  | [], _ :: _ => true
  | a :: as, b :: bs =>
    if a.val < b.val then true
    else if b.val < a.val then false
    else cppStrLt as bs

/-- The character for one decimal digit. -/
def digitChar10 (n : Nat) : Char :=
  if n = 0 then '0' else if n = 1 then '1' else if n = 2 then '2'
  else if n = 3 then '3' else if n = 4 then '4' else if n = 5 then '5'
  else if n = 6 then '6' else if n = 7 then '7' else if n = 8 then '8' else '9'

/-- Fueled digit renderer (the fuel only serves structural termination; it
is always sufficient at the call site). -/
def natToCharsCore (fuel n : Nat) : List Char :=
  match fuel with
  | 0 => []
  | fuel + 1 =>
    if n < 10 then [digitChar10 n]
    else natToCharsCore fuel (n / 10) ++ [digitChar10 (n % 10)]

/-- Decimal digit characters of a natural number, most significant first;
models the digit sequence `std::to_string` / `snprintf` produce. -/
def natToChars (n : Nat) : List Char := natToCharsCore (n + 1) n

/-- Left-pad a character list with `'0'` to the given width. -/
def padZeros (w : Nat) (cs : List Char) : List Char :=
  List.replicate (w - cs.length) '0' ++ cs

/-- The value `⌊q * 10^6 + 1/2⌋` (the six-decimal rounding `%f` performs)
for a nonnegative rational, computed on the numerator and denominator so
that it evaluates by kernel reduction. -/
def fixed6Round (q : ℚ) : Nat :=
  ((q.num * 2000000 + (q.den : Int)) / (2 * (q.den : Int))).toNat

/-- Fixed-notation rendering of a nonnegative rational with six digits after
the decimal point; models `snprintf(buffer, _, "%f", f)` for a nonnegative
double (rounding to six decimals; `%f` rounds the exact binary value of the
double to nearest). -/
def formatFixed6Abs (q : ℚ) : List Char :=
  let n : Nat := fixed6Round q
  natToChars (n / 1000000) ++ '.' :: padZeros 6 (natToChars (n % 1000000))

/-- Fixed-notation rendering of a rational, six digits after the point;
models `snprintf("%f", f)` including the sign. -/
def formatFixed6 (q : ℚ) : List Char :=
  if q < 0 then '-' :: formatFixed6Abs (-q) else formatFixed6Abs q

/-- Index of the first `'.'` in the buffer, or its length when absent;
models the loop `for (i = 0; i < length && buffer[i] != '.'; ++i);` in
`Variant::getString` (common.h line 314). -/
def dotIdx : List Char → Nat
  | [] => 0
  | c :: cs => if c = '.' then 0 else dotIdx cs + 1

/-- The loop `for (j = length; i < length && j > i && buffer[j-1] == '0'; --j);`
of `Variant::getString` (common.h line 315): starting from `j`, step down
while the character before position `j` is `'0'` and `j` stays above `i`. -/
def trimJ (cs : List Char) (i : Nat) : Nat → Nat
  | 0 => 0
  | j + 1 =>
    if i < cs.length ∧ j + 1 > i ∧ cs.getD j ' ' = '0' then trimJ cs i j
    else j + 1

/-- The FLOAT case of `Variant::getString` (common.h lines 310-317): render
with `%f`, then keep `j == i + 1 ? i : j` characters where `i` is the dot
position and `j` the result of the zero-trimming loop. -/
def trimFloatChars (cs : List Char) : List Char :=
  let i := dotIdx cs
  let j := trimJ cs i cs.length
  cs.take (if j = i + 1 then i else j)

/-- Decimal digit characters of a `long long`; models `std::to_string(i)`. -/
def intToChars (i : Int) : List Char :=
  if i < 0 then '-' :: natToChars i.natAbs else natToChars i.toNat

/-- `Variant::getString()` from `common.h` lines 304-325. -/
def Variant.getString : Variant → String
  | .str s => s
  | .strView _ chars => String.mk chars
  | .float f => String.mk (trimFloatChars (formatFixed6 f))
  | .int i => String.mk (intToChars i)
  | .bool b => if b then "true" else "false"
  | _ => ""

/-- C `isspace` for the default locale. -/
def isSpaceC (c : Char) : Bool :=
  c = ' ' ∨ c = '\t' ∨ c = '\n' ∨ c = '\x0b' ∨ c = '\x0c' ∨ c = '\r'

/-- Is the character a decimal digit. -/
def isDigitC (c : Char) : Bool := 48 ≤ c.val ∧ c.val ≤ 57

/-- Leading run of decimal digits: their accumulated value, their count, and
the rest of the input. -/
def takeDigits : List Char → Int → Nat → Int × Nat × List Char
  | c :: cs, acc, n =>
    if isDigitC c then takeDigits cs (acc * 10 + (c.toNat - 48 : Nat)) (n + 1)
    else (acc, n, c :: cs)
  | [], acc, n => (acc, n, [])

/-- Models the C library `atoll`: skip whitespace, read an optional sign and
a run of decimal digits, and return the value read so far, `0` when no digit
is present.  (`long long` overflow clamping is not modelled; every input in
this development is small.) -/
def atollModel (s : String) : Int :=
  let cs := s.data.dropWhile isSpaceC
  let (sign, cs) : Int × List Char :=
    match cs with
    | '-' :: rest => (-1, rest)
    | '+' :: rest => (1, rest)
    | rest => (1, rest)
  let (v, _, _) := takeDigits cs 0 0
  sign * v

/-- Models the C library `atof` on decimal inputs: optional whitespace and
sign, an integer part, an optional fraction, and an optional exponent that
is consumed only when at least one digit follows it; `0.0` when no digit of
the significand is present.  (Hexadecimal, `inf` and `nan` forms are not
modelled; no input of this development uses them.) -/
def atofModel (s : String) : ℚ :=
  let cs := s.data.dropWhile isSpaceC
  let (sign, cs) : ℚ × List Char :=
    match cs with
    | '-' :: rest => (-1, rest)
    | '+' :: rest => (1, rest)
    | rest => (1, rest)
  let (ip, n1, cs) := takeDigits cs 0 0
  let (fp, n2, cs) : Int × Nat × List Char :=
    match cs with
    | '.' :: rest => takeDigits rest 0 0
    | rest => (0, 0, rest)
  if n1 + n2 = 0 then 0
  else
    let mantissa : ℚ := (ip : ℚ) + (fp : ℚ) / (10 : ℚ) ^ n2
    let expo : Int :=
      match cs with
      | 'e' :: rest | 'E' :: rest =>
        let (esign, rest) : Int × List Char :=
          match rest with
          | '-' :: r => (-1, r)
          | '+' :: r => (1, r)
          | r => (1, r)
        let (e, ne, _) := takeDigits rest 0 0
        if ne = 0 then 0 else esign * e
      | _ => 0
    sign * mantissa * (10 : ℚ) ^ expo

/-- Truncation toward zero of a rational (`Int` division truncates toward
zero); models the C cast `(long long)f`. -/
def truncQ (q : ℚ) : Int := q.num / (q.den : Int)

/-- `Variant::getInt()` from `common.h` lines 327-340.  The STRING_VIEW case
calls `atoll(view)` on the raw pointer; it is modelled as parsing the viewed
characters. -/
def Variant.getInt : Variant → Int
  | .int i => i
  | .float f => truncQ f
  | .str s => atollModel s
  | .strView _ chars => atollModel (String.mk chars)
  | _ => 0

/-- `Variant::getFloat()` from `common.h` lines 342-355. -/
def Variant.getFloat : Variant → ℚ
  | .int i => (i : ℚ)
  | .float f => f
  | .str s => atofModel s
  | .strView _ chars => atofModel (String.mk chars)
  | _ => 0

mutual

/-- `Variant::operator==` from `common.h` lines 280-299: different
discriminants are unequal; strings, ints, floats, bools and (recursively,
element-wise) arrays compare by value; `NIL == NIL`; the `default:` case —
covering `STRING_VIEW`, `VARIABLE` and `POINTER` — compares the raw pointer
member `p`, which in the union aliases the view pointer (a view's length is
NOT compared) and the `Variable` handle. -/
def variantEq : Variant → Variant → Bool
  | .str s, .str t => decide (s = t)
  | .int i, .int j => decide (i = j)
  | .array a, .array b => variantEqList a b
  | .float f, .float g => decide (f = g)
  | .nil, .nil => true
  | .bool b, .bool c => decide (b = c)
  | .strView p _, .strView q _ => decide (p = q)
  | .varHandle h, .varHandle k => decide (h = k)
  | .pointer p, .pointer q => decide (p = q)
  | _, _ => false

/-- Element-wise equality of `vector<Variant>` (used by the ARRAY case of
`Variant::operator==`). -/
def variantEqList : List Variant → List Variant → Bool
  | [], [] => true
  | a :: as, b :: bs => variantEq a b && variantEqList as bs
  | _, _ => false

end

/-- Models `std::hash<std::string>` as 64-bit FNV-1a.  The concrete mixing
function is implementation-defined in C++; the development relies only on it
being a function of the character content, and on two specific short strings
hashing differently, which holds for any reasonable string hash. -/
def stdHashString (cs : List Char) : Nat :=
  cs.foldl (fun h c => ((h ^^^ c.toNat) * 1099511628211) % 18446744073709551616)
    14695981039346656037

/-- Models `std::hash<long long>` (identity on the 64-bit pattern). -/
def stdHashLL (i : Int) : Nat := (i % (18446744073709551616 : Int)).toNat

/-- Models `std::hash<double>`: some fixed function of the value. -/
def stdHashDouble (q : ℚ) : Nat := Nat.pair q.num.natAbs q.den + (if q.num < 0 then 1 else 0)

/-- `Variant::hash()` from `common.h` lines 358-377: strings hash their
content, a view hashes `getString()` (its materialized text), ints, floats
and bools hash their value, NIL and every ARRAY hash to `0`, and the
`default:` case (`VARIABLE`, `POINTER`) hashes the raw pointer member. -/
def Variant.hash : Variant → Nat
  | .str s => stdHashString s.data
  | .strView _ chars => stdHashString chars
  | .int i => stdHashLL i
  | .array _ => 0
  | .float f => stdHashDouble f
  | .nil => 0
  | .bool b => if b then 1 else 0
  | .varHandle h => h
  | .pointer p => p

/-- The raw pointer member `p` of the union as the `default:` case of
`Variant::operator<` reads it.  For a payload that is not pointer-shaped the
C++ read has indeterminate value; it is modelled as `0` (no claim of this
development depends on those cases). -/
def Variant.rawPtr : Variant → Nat
  | .strView ptr _ => ptr
  | .varHandle h => h
  | .pointer p => p
  | _ => 0

/-- `Variant::operator<` from `common.h` lines 379-400, translated branch by
branch.  Note the STRING_VIEW case of the source is
`return v.getString() < string(view, len);` — the operands are in that
order. -/
def Variant.lt (a b : Variant) : Bool :=
  match a with
  | .int i => decide (i < b.getInt)
  | .float f => decide (f < b.getFloat)
  | .str s =>
    match b with
    | .str t => cppStrLt s.data t.data
    | _ => cppStrLt s.data b.getString.data
  | .strView _ chars => cppStrLt b.getString.data chars
  | _ => decide (a.rawPtr < b.rawPtr)

/-! Storage-level model of `Variant` for the assignment operators.  The C++
assignment operators manipulate the union storage and the `type` field
separately, so they are modelled on a pair of both: `store` is whatever was
last written into the union (independently of what `type` claims), and the
destructor calls the operator performs are recorded in a trace. -/

/-- Last written content of the `Variant` union storage.  `uninit` models
storage no constructor has written (a default-constructed `Variant`). -/
inductive Storage where
  | uninit
  | sb (b : Bool)
  | sf (f : ℚ)
  | si (i : Int)
  | ss (s : String)
  | sview (ptr : Nat) (chars : List Char)
  | sa (elems : List Variant)
  | sv (h : Nat)
  | sp (p : Nat)

/-- A `Variant` object as it sits in memory: union storage plus the `type`
field, tracked independently because the assignment operators update them
independently. -/
structure VariantMach where
  store : Storage
  type : VType

/-- Destructor calls a `Variant` assignment performs on the destination's
previously-live owned payload. -/
inductive DtorOp where
  | destructString
  | destructArray
deriving DecidableEq, Repr

/-- The memory state a well-formed `Variant` constructor produces. -/
def Variant.mach : Variant → VariantMach
  | .nil => ⟨.uninit, .NIL⟩
  | .bool b => ⟨.sb b, .BOOL⟩
  | .float f => ⟨.sf f, .FLOAT⟩
  | .int i => ⟨.si i, .INT⟩
  | .str s => ⟨.ss s, .STRING⟩
  | .strView p c => ⟨.sview p c, .STRING_VIEW⟩
  | .array a => ⟨.sa a, .ARRAY⟩
  | .varHandle h => ⟨.sv h, .VARIABLE⟩
  | .pointer p => ⟨.sp p, .POINTER⟩

/-- Read of the union member `s` (used by `s = v.s`); reading it when a
string is not the live member is undefined in C++ and modelled as `""`. -/
def Storage.readS : Storage → String
  | .ss s => s
  | _ => ""

/-- Read of the union member `a` (used by `a = v.a`). -/
def Storage.readA : Storage → List Variant
  | .sa a => a
  | _ => []

/-- Read of the union members `view`/`len` (used by the STRING_VIEW case). -/
def Storage.readView : Storage → Nat × List Char
  | .sview p c => (p, c)
  | _ => (0, [])

/-- The 8-byte write `f = v.f` of the `default:` case of the assignment
operators: it copies the source's scalar payload bits over the destination
storage (for a source whose live member is a string or array the read is
undefined and modelled as `uninit`). -/
def Storage.scalarCopy : Storage → Storage
  | .sb b => .sb b
  | .sf f => .sf f
  | .si i => .si i
  | .sv h => .sv h
  | .sp p => .sp p
  | _ => .uninit

/-- `Variant::operator=(const Variant&)` from `common.h` lines 214-245,
translated statement by statement.  The switch is on the SOURCE's type; the
inner guards `if (v.type == Type::ARRAY)` / `if (v.type == Type::STRING)`
also test the source (`v`), exactly as the source code does, and the
operator never writes the `type` field.  Returns the destination's new
memory state and the trace of destructor calls performed. -/
def copyAssignV (dst src : VariantMach) : VariantMach × List DtorOp :=
  if src.type = .STRING then
    if dst.type ≠ .STRING then
      let (st0, tr0) : Storage × List DtorOp :=
        if src.type = .ARRAY then (dst.store, [.destructArray]) else (.si 0, [])
      let _ := st0
      -- new(&s) string; s = v.s;
      (⟨.ss src.store.readS, dst.type⟩, tr0)
    else
      (⟨.ss src.store.readS, dst.type⟩, [])
  else if src.type = .ARRAY then
    if dst.type ≠ .ARRAY then
      let (st0, tr0) : Storage × List DtorOp :=
        if src.type = .STRING then (dst.store, [.destructString]) else (.si 0, [])
      let _ := st0
      -- new(&a) vector<Variant>(); a = v.a;
      (⟨.sa src.store.readA, dst.type⟩, tr0)
    else
      (⟨.sa src.store.readA, dst.type⟩, [])
  else if src.type = .STRING_VIEW then
    (⟨.sview src.store.readView.1 src.store.readView.2, dst.type⟩, [])
  else
    (⟨src.store.scalarCopy, dst.type⟩, [])

/-- `Variant::operator=(Variant&&)` from `common.h` lines 247-278: identical
control flow to the copy assignment (`s = move(v.s)` / `a = move(v.a)` move
the payload instead of copying; the destination's resulting state is the
same).  Returns the destination's new memory state and the destructor
trace. -/
def moveAssignV (dst src : VariantMach) : VariantMach × List DtorOp :=
  if src.type = .STRING then
    if dst.type ≠ .STRING then
      let (st0, tr0) : Storage × List DtorOp :=
        if src.type = .ARRAY then (dst.store, [.destructArray]) else (.si 0, [])
      let _ := st0
      (⟨.ss src.store.readS, dst.type⟩, tr0)
    else
      (⟨.ss src.store.readS, dst.type⟩, [])
  else if src.type = .ARRAY then
    if dst.type ≠ .ARRAY then
      let (st0, tr0) : Storage × List DtorOp :=
        if src.type = .STRING then (dst.store, [.destructString]) else (.si 0, [])
      let _ := st0
      (⟨.sa src.store.readA, dst.type⟩, tr0)
    else
      (⟨.sa src.store.readA, dst.type⟩, [])
  else if src.type = .STRING_VIEW then
    (⟨.sview src.store.readView.1 src.store.readView.2, dst.type⟩, [])
  else
    (⟨src.store.scalarCopy, dst.type⟩, [])

/-! Model of `Liquid::Node`.  A node is a leaf (null `NodeType` pointer,
payload a `Variant`) or a branch (non-null `NodeType` pointer, payload an
ordered list of exclusively-owned children).  Each node carries the identity
of its heap cell (`id`, modelling the address `make_unique` allocated for
it), its `NodeType` pointer for a branch (`ntype`, a non-null pointer value),
and the `line`/`column` metadata. -/

/-- A `Liquid::Node` tree with explicit cell identities. -/
inductive NTree where
  | leaf (id : Nat) (line column : Nat) (v : Variant)
  | branch (id : Nat) (ntype : Nat) (line column : Nat) (children : List NTree)

/-- Cell identity (heap address) of the node. -/
def NTree.idOf : NTree → Nat
  | .leaf i _ _ _ => i
  | .branch i _ _ _ _ => i

/-- The `line` field. -/
def NTree.lineOf : NTree → Nat
  | .leaf _ l _ _ => l
  | .branch _ _ l _ _ => l

/-- The `column` field. -/
def NTree.columnOf : NTree → Nat
  | .leaf _ _ c _ => c
  | .branch _ _ _ c _ => c

/-- The leaf payload, when the node is a leaf. -/
def NTree.leafVariant? : NTree → Option Variant
  | .leaf _ _ _ v => some v
  | .branch _ _ _ _ _ => none

/-- The children list, when the node is a branch. -/
def NTree.childrenOf : NTree → List NTree
  | .leaf _ _ _ _ => []
  | .branch _ _ _ _ kids => kids

/-- Whether the node's `type` pointer is null (the node is a leaf). -/
def NTree.isLeaf : NTree → Bool
  | .leaf _ _ _ _ => true
  | .branch _ _ _ _ _ => false

mutual

/-- `Node::Node(const Node&)` from `common.h` lines 417-426: copies `type`,
`line` and `column`; a branch clones every child recursively through
`make_unique<Node>(*it->get())`, a leaf copy-constructs the `Variant`.
Fresh cell identities are drawn from the counter `n` (the new allocations);
returns the copy and the next unused identity. -/
def nodeCopy : NTree → Nat → NTree × Nat
  | .leaf _ l c v, n => (.leaf n l c v, n + 1)
  | .branch _ ty l c kids, n =>
    let (kids', n') := nodeCopyList kids (n + 1)
    (.branch n ty l c kids', n')

/-- The child-cloning loop of the `Node` copy constructor / copy
assignment. -/
def nodeCopyList : List NTree → Nat → List NTree × Nat
  | [], n => ([], n)
  | t :: ts, n =>
    let (t', n') := nodeCopy t n
    let (ts', n'') := nodeCopyList ts n'
    (t' :: ts', n'')

end

/-- `Node::operator=(const Node&)` from `common.h` lines 448-461: destructs
the destination's children when it was a branch, then for a branch source
clones every child recursively, while for a leaf source it executes
`new(&variant) Variant()` — placement-constructing an EMPTY `Variant`, not a
copy of `n.variant` — and finally sets `type = n.type`.  `line` and `column`
are never written.  The destination keeps its own cell; fresh identities for
cloned children are drawn from `n`. -/
def nodeCopyAssign (d s : NTree) (n : Nat) : NTree × Nat :=
  match s with
  | .leaf _ _ _ _ => (.leaf d.idOf d.lineOf d.columnOf .nil, n)
  | .branch _ ty _ _ kids =>
    let (kids', n') := nodeCopyList kids n
    (.branch d.idOf ty d.lineOf d.columnOf kids', n')

/-- Resulting destination value of `Node::operator=(Node&&)` from `common.h`
lines 463-487: in every {leaf,branch} × {leaf,branch} combination the
destination ends with the source's `type` and payload (variant moved in, or
children vector moved in) while keeping its own cell and its own `line` and
`column`, which the operator never writes.  (The event ordering of the
aliased self-move case is modelled separately by `moveFromDescendant`.) -/
def nodeMoveAssign (d s : NTree) : NTree :=
  match s with
  | .leaf _ _ _ v => .leaf d.idOf d.lineOf d.columnOf v
  | .branch _ ty _ _ kids => .branch d.idOf ty d.lineOf d.columnOf kids

/-- `Node::getString()` from `common.h` lines 443-446: `assert(!type)` then
`variant.getString()`.  The assertion failure on a branch is an unrecoverable
abort, modelled as `none`; on a leaf the function returns the leaf variant's
string form. -/
def NTree.getStringN : NTree → Option String
  | .leaf _ _ _ v => some v.getString
  | .branch _ _ _ _ _ => none

mutual

/-- Cell identities of a subtree in destruction order: `~Node` destroys the
children vector (each owned child recursively) and then the node's own cell
is freed. -/
def postIds : NTree → List Nat
  | .leaf i _ _ _ => [i]
  | .branch i _ _ _ kids => postIdsList kids ++ [i]

/-- Destruction order of a `vector<unique_ptr<Node>>`: element by element. -/
def postIdsList : List NTree → List Nat
  | [] => []
  | t :: ts => postIds t ++ postIdsList ts

end

/-- Child lookup by index (a position in the `children` vector). -/
def NTree.childAt? : NTree → Nat → Option NTree
  | .branch _ _ _ _ kids, idx => kids[idx]?
  | .leaf _ _ _ _, _ => none

/-- Descendant lookup by a path of child indices. -/
def NTree.getPath? : NTree → List Nat → Option NTree
  | t, [] => some t
  | t, idx :: p =>
    match t.childAt? idx with
    | some c => c.getPath? p
    | none => none

/-- Replace the node at the given path by the same node with an empty
children vector (models the source vector being left empty after its buffer
is stolen by a vector move assignment). -/
def emptyAt : List Nat → NTree → NTree
  | [], .branch i ty l c _ => .branch i ty l c []
  | [], t => t
  | idx :: p, .branch i ty l c kids =>
    match kids[idx]? with
    | some ch => .branch i ty l c (kids.set idx (emptyAt p ch))
    | none => .branch i ty l c kids
  | _ :: _, t => t
termination_by p _ => p.length
decreasing_by simp

/-- Events of a `Node` move assignment: extraction of the source's payload
(the `Variant v = move(n.variant)` read, or the buffer steal of
`children = move(n.children)`), and destruction (deallocation) of a cell. -/
inductive Ev where
  | extractVariant (id : Nat)
  | extractChildren (id : Nat)
  | destroy (id : Nat)
deriving DecidableEq, Repr

/-- Whether the event is a cell destruction. -/
def Ev.isDestroy : Ev → Bool
  | .destroy _ => true
  | _ => false

/-- The cell destroyed by the event, if any. -/
def Ev.destroyedId : Ev → Option Nat
  | .destroy i => some i
  | _ => none

/-- `Node::operator=(Node&&)` executed in the aliased case: the source is
the destination's own descendant at path `p` (so the destination is a
branch).  Follows `common.h` lines 463-487 for a branch destination:

* source leaf — `Variant v = move(n.variant);` extracts the payload first,
  then `children.~vector<unique_ptr<Node>>()` destroys every cell of the
  destination's children (the source cell among them), then the extracted
  variant is placement-constructed into the destination;
* source branch — `children = move(n.children)` steals the source's buffer
  and leaves the source vector empty before the destination's old elements
  are destroyed (`std::vector` move assignment: the implementation swaps the
  buffers out and destroys the old elements afterwards, as libstdc++ does),
  so the destruction pass sees the source node with no children and the
  stolen subtrees survive.

Returns the destination's resulting value and the event trace; `none` when
the destination is a leaf or the path is empty or invalid (outside the
aliased-descendant precondition). -/
def moveFromDescendant (dest : NTree) (p : List Nat) : Option (NTree × List Ev) :=
  match dest with
  | .leaf _ _ _ _ => none
  | .branch i ty l c kids =>
    if p = [] then none
    else
      match (NTree.branch i ty l c kids).getPath? p with
      | none => none
      | some (.leaf sid _ _ v) =>
        some (.leaf i l c v,
          .extractVariant sid :: (postIdsList kids).map .destroy)
      | some (.branch sid sty _ _ skids) =>
        let emptied := emptyAt p (.branch i ty l c kids)
        some (.branch i sty l c skids,
          .extractChildren sid :: (postIdsList emptied.childrenOf).map .destroy)

/-- Declarative trimming, following the spec's words for §4.1: from the
fixed-notation rendering remove the maximal run of trailing `'0'` characters
lying after the first `'.'`, then remove the `'.'` itself when it became
last; a rendering containing no `'.'` is unchanged.  Stated independently of
the source's index loops, for comparison with `trimFloatChars`. -/
def specTrimFixed (cs : List Char) : List Char :=
  let i := dotIdx cs
  if i = cs.length then cs
  else
    let frac := cs.drop (i + 1)
    let frac' := (frac.reverse.dropWhile (fun c => c = '0')).reverse
    if frac' = [] then cs.take i else cs.take (i + 1) ++ frac'

/-- The extraction event `Node::operator=(Node&&)` performs first for a
given source: the `Variant v = move(n.variant)` read for a leaf, the
`children = move(n.children)` buffer steal for a branch. -/
def NTree.rootEv : NTree → Ev
  | .leaf sid _ _ _ => .extractVariant sid
  | .branch sid _ _ _ _ => .extractChildren sid

/-! Theorems. -/

/-- A string has length zero exactly when it is the empty string. -/
theorem lengthZeroIff (s : String) : s.length = 0 ↔ s = "" := by
  cases s with
  | mk data => cases data <;> simp [String.length, String.ext_iff]

/-- C2: for every `Variant` and every falsiness bitmask, `isTruthy` returns
exactly the table of §4.1 — the value is falsy precisely when it is
`Bool(false)`; or a numeric zero (`Int`/`Float`) with the treat-0-as-false
flag set; or a null `Pointer` or `Nil` with the treat-nil-as-false flag set;
or the empty `String` with the treat-empty-string-as-false flag set —
`StringView`, `Array` and `VariableHandle` are always truthy. -/
theorem c2_isTruthy_matches_table (v : Variant) (mask : Nat) :
    v.isTruthy mask = false ↔
      (v = .bool false
       ∨ (mask &&& FALSY_0 ≠ 0 ∧ (v = .int 0 ∨ v = .float 0))
       ∨ (mask &&& FALSY_NIL ≠ 0 ∧ (v = .pointer 0 ∨ v = .nil))
       ∨ (mask &&& FALSY_EMPTY_STRING ≠ 0 ∧ v = .str "")) := by
  cases v <;> simp [Variant.isTruthy, lengthZeroIff]

/-- C7: the numeric coercions are total and default to zero on unparsable
text — `getInt` on String "42abc" is 42 (the leading numeric prefix), on
"abc" is 0, `getFloat` on "" is 0.0, and `Nil`, `Bool`, `Array`,
`VariableHandle` and `Pointer` coerce to 0 / 0.0. -/
theorem c7_coercions_total_default_zero :
    Variant.getInt (.str "42abc") = 42 ∧
    Variant.getInt (.str "abc") = 0 ∧
    Variant.getFloat (.str "") = 0 ∧
    Variant.getInt .nil = 0 ∧ Variant.getFloat .nil = 0 ∧
    (∀ b, Variant.getInt (.bool b) = 0 ∧ Variant.getFloat (.bool b) = 0) ∧
    (∀ l, Variant.getInt (.array l) = 0 ∧ Variant.getFloat (.array l) = 0) ∧
    (∀ h, Variant.getInt (.varHandle h) = 0 ∧ Variant.getFloat (.varHandle h) = 0) ∧
    (∀ p, Variant.getInt (.pointer p) = 0 ∧ Variant.getFloat (.pointer p) = 0) :=
  ⟨rfl, rfl, rfl, rfl, rfl, fun _ => ⟨rfl, rfl⟩, fun _ => ⟨rfl, rfl⟩,
    fun _ => ⟨rfl, rfl⟩, fun _ => ⟨rfl, rfl⟩⟩

/-- C9: `Node::getString` returns the leaf variant's string form on every
leaf, and on every branch (non-null type pointer) it hits the
`assert(!type)` contract violation (modelled as `none`), never a recoverable
value. -/
theorem c9_getString_leaf_only :
    (∀ id l c v, NTree.getStringN (.leaf id l c v) = some (Variant.getString v)) ∧
    (∀ id ty l c kids, NTree.getStringN (.branch id ty l c kids) = none) :=
  ⟨fun _ _ _ _ => rfl, fun _ _ _ _ _ => rfl⟩

/-- C10: `Node` copy assignment and move assignment never write the
destination's `line` and `column` fields, while the copy constructor does
propagate the source's position. -/
theorem c10_assign_preserves_position :
    (∀ d s n, (nodeCopyAssign d s n).1.lineOf = d.lineOf
      ∧ (nodeCopyAssign d s n).1.columnOf = d.columnOf) ∧
    (∀ d s, (nodeMoveAssign d s).lineOf = d.lineOf
      ∧ (nodeMoveAssign d s).columnOf = d.columnOf) ∧
    (∀ t n, (nodeCopy t n).1.lineOf = t.lineOf
      ∧ (nodeCopy t n).1.columnOf = t.columnOf) := by
  refine ⟨fun d s n => ?_, fun d s => ?_, fun t n => ?_⟩
  · cases s <;> exact ⟨rfl, rfl⟩
  · cases s <;> exact ⟨rfl, rfl⟩
  · cases t <;> exact ⟨rfl, rfl⟩

/-- C1: evaluation of `Variant::operator=` at an Array destination and
String source.  The operator leaves the `type` field at `ARRAY` (it is never
assigned), performs NO destructor call on the destination's live array (the
guard `if (v.type == Type::ARRAY)` tests the source, which is a String
here), and writes the string payload over the array storage — so the
destination does not receive the source's discriminant and `a == b` fails
after `a = b`.  The move assignment behaves identically. -/
theorem c1_variant_assign_eval :
    copyAssignV (Variant.array [.int 1]).mach (Variant.str "x").mach
      = (⟨.ss "x", .ARRAY⟩, []) ∧
    moveAssignV (Variant.array [.int 1]).mach (Variant.str "x").mach
      = (⟨.ss "x", .ARRAY⟩, []) ∧
    (Variant.str "x").mach.type = .STRING ∧
    VType.ARRAY ≠ VType.STRING :=
  ⟨rfl, rfl, rfl, by decide⟩

/-- C3: evaluation of `Node::operator=(const Node&)` at a leaf source.  The
assignment executes `new(&variant) Variant()` — the destination ends as a
leaf holding an empty (`Nil`) `Variant`, not a copy of the source's
String("hello") payload — while the copy constructor at the same source does
copy the payload. -/
theorem c3_copy_assign_leaf_eval :
    nodeCopyAssign (.leaf 0 7 9 (.int 5)) (.leaf 1 3 4 (.str "hello")) 10
      = (.leaf 0 7 9 .nil, 10) ∧
    (nodeCopy (.leaf 1 3 4 (.str "hello")) 10).1 = .leaf 10 3 4 (.str "hello") ∧
    Variant.nil ≠ Variant.str "hello" :=
  ⟨rfl, rfl, fun h => nomatch h⟩

/-- C5 counterexample: two `STRING_VIEW` variants over the same base pointer
with different lengths (in C++, views of the same buffer) are equal under
`operator==` — the `default:` case compares only the aliased pointer member
`p`, ignoring `len` — yet they hash differently, because `hash()` hashes the
materialized text `string(view, len)`. -/
theorem c5_eq_hash_counterexample :
    variantEq (.strView 100 ['a', 'b']) (.strView 100 ['a', 'b', 'c']) = true ∧
    Variant.hash (.strView 100 ['a', 'b']) ≠ Variant.hash (.strView 100 ['a', 'b', 'c']) :=
  ⟨rfl, by decide⟩

/-- C5 amended: for every pair of Variants whose discriminant is not
`StringView`, `a == b` implies `hash(a) == hash(b)`; and every Array hashes
to the constant `0`.  (For `StringView`, equality compares only the base
pointer while the hash covers the viewed text, so equal views of different
lengths may hash differently.) -/
theorem c5_eq_implies_hash_eq_amended :
    (∀ a b, variantEq a b = true → a.typeOf ≠ .STRING_VIEW → a.hash = b.hash) ∧
    (∀ l, Variant.hash (.array l) = 0) := by
  refine ⟨fun a b heq hty => ?_, fun _ => rfl⟩
  cases a <;> cases b <;>
    simp_all [variantEq, Variant.typeOf, Variant.hash]

/-- C5 amended witness: concrete instantiation — equal Int variants hash
equal, and a concrete Array hashes to `0`. -/
theorem c5_eq_implies_hash_eq_amended_witness :
    Variant.hash (.int 5) = Variant.hash (.int 5) ∧ Variant.hash (.array [.int 1]) = 0 :=
  ⟨c5_eq_implies_hash_eq_amended.1 (.int 5) (.int 5) (by decide) (by decide),
    c5_eq_implies_hash_eq_amended.2 [.int 1]⟩

/-- C6 counterexample: for the StringView `a` viewing "a" and the String
`b` = "b", `a`'s text is lexicographically less than `b`'s string form, yet
`a < b` evaluates to false — the STRING_VIEW case of `operator<` computes
`v.getString() < string(view, len)`, the reversed comparison. -/
theorem c6_strview_lt_counterexample :
    Variant.lt (.strView 7 ['a']) (.str "b") = false ∧
    cppStrLt ['a'] ['b'] = true ∧
    (Variant.str "b").getString = "b" :=
  ⟨rfl, rfl, rfl⟩

/-- C6 amended: a String compares lexicographically against the other's
string form (`b.getString()`, which is `b`'s own string when `b` is a
String), but a StringView compares in the REVERSED direction: `a < b` holds
exactly when `b`'s string form is lexicographically less than `a`'s
materialized text. -/
theorem c6_string_lt_amended :
    (∀ s b, Variant.lt (.str s) b = cppStrLt s.data b.getString.data) ∧
    (∀ ptr cs b, Variant.lt (.strView ptr cs) b = cppStrLt b.getString.data cs) := by
  refine ⟨fun s b => ?_, fun ptr cs b => rfl⟩
  cases b <;> rfl

/-- No decimal digit character is the dot. -/
theorem digitChar10_ne_dot (m : Nat) : digitChar10 m ≠ '.' := by
  unfold digitChar10
  repeat' split
  all_goals decide

/-- The digit renderer never emits a dot. -/
theorem natToCharsCore_no_dot (fuel n : Nat) : '.' ∉ natToCharsCore fuel n := by
  induction fuel generalizing n with
  | zero => simp [natToCharsCore]
  | succ fuel ih =>
    unfold natToCharsCore
    split
    · simp [(digitChar10_ne_dot n).symm]
    · simp only [List.mem_append, List.mem_singleton, not_or]
      exact ⟨ih _, fun h => digitChar10_ne_dot _ h.symm⟩

/-- The digit renderer of a natural number never emits a dot. -/
theorem natToChars_no_dot (n : Nat) : '.' ∉ natToChars n :=
  natToCharsCore_no_dot _ _

/-- Position of the dot in a buffer of dot-free characters followed by a dot. -/
theorem dotIdx_append_dot (pre rest : List Char) (h : '.' ∉ pre) :
    dotIdx (pre ++ '.' :: rest) = pre.length := by
  induction pre with
  | nil => simp [dotIdx]
  | cons c cs ih =>
    have hc : ¬ c = '.' := fun hc => h (by simp [hc])
    simp [dotIdx, hc, ih fun hm => h (List.mem_cons_of_mem _ hm)]

/-- Reading just after a prefix returns the appended head. -/
theorem getD_after (l r : List Char) (c d : Char) :
    (l ++ c :: r).getD l.length d = c := by
  induction l with
  | nil => rfl
  | cons a l ih => simpa [List.getD] using ih

/-- Reading inside the prefix of an appended list. -/
theorem getD_inside (l ext : List Char) (n : Nat) (d : Char) (h : n < l.length) :
    (l ++ ext).getD n d = l.getD n d := by
  induction l generalizing n with
  | nil => simp at h
  | cons a l ih =>
    cases n with
    | zero => rfl
    | succ n => simpa [List.getD] using ih n (by simpa using h)

/-- One unfolding step of the zero-trimming loop. -/
theorem trimJ_succ (cs : List Char) (i j : Nat) :
    trimJ cs i (j + 1)
      = if i < cs.length ∧ j + 1 > i ∧ cs.getD j ' ' = '0' then trimJ cs i j
        else j + 1 := rfl

/-- The zero-trimming loop ignores characters at or beyond its stop
index. -/
theorem trimJ_append (cs ext : List Char) (i : Nat) (hi : i < cs.length) :
    ∀ j, j ≤ cs.length → trimJ (cs ++ ext) i j = trimJ cs i j := by
  intro j
  induction j with
  | zero => intro _; rfl
  | succ j ih =>
    intro hj
    have hjlt : j < cs.length := hj
    have hget : (cs ++ ext).getD j ' ' = cs.getD j ' ' := getD_inside _ _ _ _ hjlt
    have hlen : i < (cs ++ ext).length := by
      simp only [List.length_append]; omega
    rw [trimJ_succ, trimJ_succ]
    simp only [hget]
    by_cases hcond : i < cs.length ∧ j + 1 > i ∧ cs.getD j ' ' = '0'
    · rw [if_pos ⟨hlen, hcond.2⟩, if_pos hcond, ih (by omega)]
    · rw [if_neg ?_, if_neg hcond]
      intro hcontra
      exact hcond ⟨hi, hcontra.2⟩

/-- Characterization of the zero-trimming loop on a buffer of shape
`pre ++ '.' :: frac` started at the buffer's length with `i` at the dot: it
stops just past the dot plus the fraction with its trailing zeros
removed. -/
theorem trimJ_strip (pre frac : List Char) :
    trimJ (pre ++ '.' :: frac) pre.length (pre ++ '.' :: frac).length
      = pre.length + 1 + ((frac.reverse.dropWhile (fun c => c = '0')).reverse).length := by
  induction frac using List.reverseRecOn with
  | nil =>
    have hlen : (pre ++ '.' :: ([] : List Char)).length = pre.length + 1 := by simp
    have hget : (pre ++ '.' :: ([] : List Char)).getD pre.length ' ' = '.' :=
      getD_after _ _ _ _
    have hcond : ¬(pre.length < (pre ++ '.' :: ([] : List Char)).length
        ∧ pre.length + 1 > pre.length
        ∧ (pre ++ '.' :: ([] : List Char)).getD pre.length ' ' = '0') := by
      rw [hget]
      rintro ⟨-, -, hcontra⟩
      exact absurd hcontra (by decide)
    rw [hlen, trimJ_succ, if_neg hcond]
    simp
  | append_singleton fr c ih =>
    have hassoc : pre ++ '.' :: (fr ++ [c]) = (pre ++ '.' :: fr) ++ [c] := by simp
    have hcs : (pre ++ '.' :: fr).length = pre.length + 1 + fr.length := by
      simp only [List.length_append, List.length_cons, List.length_nil]; omega
    have hlen : (pre ++ '.' :: (fr ++ [c])).length = (pre ++ '.' :: fr).length + 1 := by
      simp only [List.length_append, List.length_cons, List.length_nil]; omega
    have hi : pre.length < (pre ++ '.' :: fr).length := by
      rw [hcs]; omega
    have hget : (pre ++ '.' :: (fr ++ [c])).getD (pre ++ '.' :: fr).length ' ' = c := by
      rw [hassoc]; exact getD_after _ _ _ _
    rw [hlen]
    by_cases hc : c = '0'
    · have hcond : pre.length < (pre ++ '.' :: (fr ++ [c])).length
          ∧ (pre ++ '.' :: fr).length + 1 > pre.length
          ∧ (pre ++ '.' :: (fr ++ [c])).getD (pre ++ '.' :: fr).length ' ' = '0' := by
        refine ⟨by rw [hlen, hcs]; omega, by omega, by rw [hget, hc]⟩
      rw [trimJ_succ, if_pos hcond, hassoc, trimJ_append _ _ _ hi _ (Nat.le_refl _), ih]
      simp [hc]
    · have hcond : ¬(pre.length < (pre ++ '.' :: (fr ++ [c])).length
          ∧ (pre ++ '.' :: fr).length + 1 > pre.length
          ∧ (pre ++ '.' :: (fr ++ [c])).getD (pre ++ '.' :: fr).length ' ' = '0') := by
        rintro ⟨-, -, hcontra⟩
        exact hc (by rw [hget] at hcontra; exact hcontra)
      rw [trimJ_succ, if_neg hcond, hcs]
      simp [List.dropWhile_cons, hc]
      omega

/-- The trimming loops of `Variant::getString`'s FLOAT case compute exactly
the declarative trimming, on every buffer consisting of a dot-free prefix, a
dot, and a fraction. -/
theorem trimFloat_eq_spec (pre frac : List Char) (hpre : '.' ∉ pre) :
    trimFloatChars (pre ++ '.' :: frac) = specTrimFixed (pre ++ '.' :: frac) := by
  have hidx : dotIdx (pre ++ '.' :: frac) = pre.length := dotIdx_append_dot _ _ hpre
  have hlen : (pre ++ '.' :: frac).length = pre.length + 1 + frac.length := by
    simp only [List.length_append, List.length_cons, List.length_nil]; omega
  have hgroup : pre ++ '.' :: frac = (pre ++ ['.']) ++ frac := by simp
  have hglen : (pre ++ ['.']).length = pre.length + 1 := by simp
  have hdrop : (pre ++ '.' :: frac).drop (pre.length + 1) = frac := by
    rw [hgroup, List.drop_left' hglen]
  have htake : (pre ++ '.' :: frac).take pre.length = pre := by
    rw [hgroup, List.append_assoc, List.take_left' rfl]
  have hdw := List.takeWhile_append_dropWhile (fun c => decide (c = '0')) frac.reverse
  have hdecomp :
      (frac.reverse.dropWhile (fun c => c = '0')).reverse
        ++ (frac.reverse.takeWhile (fun c => c = '0')).reverse = frac := by
    rw [← List.reverse_append, hdw, List.reverse_reverse]
  have htrim := trimJ_strip pre frac
  unfold trimFloatChars specTrimFixed
  rw [hidx, hlen, if_neg (by omega)]
  simp only [hdrop]
  rw [← hlen, htrim]
  by_cases hempty : (frac.reverse.dropWhile (fun c => c = '0')).reverse = []
  · rw [hempty]
    simp [htake]
  · have hL : 0 < (frac.reverse.dropWhile (fun c => c = '0')).reverse.length :=
      List.length_pos.mpr hempty
    rw [if_neg (by omega), if_neg hempty]
    have htake2 : (pre ++ '.' :: frac).take (pre.length + 1) = pre ++ ['.'] := by
      rw [hgroup, List.take_left' hglen]
    rw [htake2, hgroup]
    rw [List.take_append_eq_append_take,
      List.take_of_length_le (by rw [hglen]; omega), hglen]
    have hsub : pre.length + 1 + (frac.reverse.dropWhile (fun c => c = '0')).reverse.length
        - (pre.length + 1) = (frac.reverse.dropWhile (fun c => c = '0')).reverse.length := by
      omega
    rw [hsub]
    congr 1
    have hfin := List.take_left
      (frac.reverse.dropWhile (fun c => c = '0')).reverse
      (frac.reverse.takeWhile (fun c => c = '0')).reverse
    rw [hdecomp] at hfin
    exact hfin

/-- Every `%f` rendering decomposes as a dot-free prefix, the dot, and a
six-character fraction. -/
theorem formatFixed6_decomp (q : ℚ) :
    ∃ pre frac, formatFixed6 q = pre ++ '.' :: frac ∧ '.' ∉ pre := by
  unfold formatFixed6 formatFixed6Abs
  by_cases hq : q < 0
  · rw [if_pos hq]
    refine ⟨'-' :: natToChars (fixed6Round (-q) / 1000000),
      padZeros 6 (natToChars (fixed6Round (-q) % 1000000)), by simp, ?_⟩
    simp only [List.mem_cons, not_or]
    exact ⟨by decide, natToChars_no_dot _⟩
  · rw [if_neg hq]
    exact ⟨natToChars (fixed6Round q / 1000000),
      padZeros 6 (natToChars (fixed6Round q % 1000000)), rfl, natToChars_no_dot _⟩

/-- C8: for every Float payload, `getString` is the declarative trimming —
trailing fractional zeros and a then-trailing decimal point removed — of the
fixed-notation rendering; in particular Float(3.0) gives "3", Float(3.14)
gives "3.14", and Float(3.100) gives "3.1". -/
theorem c8_float_getString_trims :
    (∀ f, (Variant.float f).getString = String.mk (specTrimFixed (formatFixed6 f))) ∧
    (Variant.float 3).getString = "3" ∧
    (Variant.float (mkRat 314 100)).getString = "3.14" ∧
    (Variant.float (mkRat 31 10)).getString = "3.1" := by
  refine ⟨fun f => ?_, rfl, rfl, rfl⟩
  obtain ⟨pre, frac, heq, hpre⟩ := formatFixed6_decomp f
  show String.mk (trimFloatChars (formatFixed6 f)) = String.mk (specTrimFixed (formatFixed6 f))
  rw [heq, trimFloat_eq_spec _ _ hpre]

/-- Destruction order distributes over vector concatenation. -/
theorem postIdsList_append (xs ys : List NTree) :
    postIdsList (xs ++ ys) = postIdsList xs ++ postIdsList ys := by
  induction xs with
  | nil => rfl
  | cons t ts ih => simp [postIdsList, ih]

/-- Emptying a descendant's children only removes cells from the destruction
order. -/
theorem emptyAt_postIds_sublist (p : List Nat) :
    ∀ t, List.Sublist (postIds (emptyAt p t)) (postIds t) := by
  induction p with
  | nil =>
    intro t
    cases t with
    | leaf i l c v => simp [emptyAt]
    | branch i ty l c kids =>
      simp only [emptyAt, postIds, postIdsList, List.nil_append]
      exact List.Sublist.append (List.nil_sublist _) (List.Sublist.refl _)
  | cons idx p ih =>
    intro t
    cases t with
    | leaf i l c v => simp [emptyAt]
    | branch i ty l c kids =>
      cases hK : kids[idx]? with
      | none => simp [emptyAt, hK]
      | some ch =>
        have hidx : idx < kids.length := by
          by_contra hcon
          rw [List.getElem?_eq_none (Nat.le_of_not_lt hcon)] at hK
          cases hK
        have hset : kids.set idx (emptyAt p ch)
            = kids.take idx ++ emptyAt p ch :: kids.drop (idx + 1) := by
          rw [List.set_eq_take_append_cons_drop, if_pos hidx]
        have horig : kids.drop idx = ch :: kids.drop (idx + 1) := by
          rw [List.drop_eq_getElem_cons hidx]
          congr
          have := List.getElem?_eq_getElem hidx
          rw [hK] at this
          exact (Option.some_injective _ this.symm)
        simp only [emptyAt, hK, postIds]
        refine List.Sublist.append ?_ (List.Sublist.refl _)
        rw [hset]
        conv_rhs => rw [← List.take_append_drop idx kids, horig]
        rw [postIdsList_append, postIdsList_append]
        exact List.Sublist.append (List.Sublist.refl _)
          (List.Sublist.append (ih ch) (List.Sublist.refl _))

/-- Reading the destroyed cells back out of a pure destruction trace. -/
theorem filterMap_destroyedId_map (ids : List Nat) :
    List.filterMap (Ev.destroyedId ∘ Ev.destroy) ids = ids := by
  induction ids with
  | nil => rfl
  | cons a as ih => simp [Function.comp, Ev.destroyedId, ih]

/-- A mapped destruction trace consists of destroy events only. -/
theorem all_isDestroy_map (ids : List Nat) :
    (ids.map Ev.destroy).all Ev.isDestroy = true := by
  rw [List.all_eq_true]
  intro x hx
  obtain ⟨a, -, rfl⟩ := List.mem_map.mp hx
  rfl

/-- C4: moving one of the destination's own descendants into the destination
(`Node::operator=(Node&&)` with the source stored inside the destination's
subtree) is safe: the event trace starts with the extraction of the source's
payload and every later event is a destruction — the moved value is fully
extracted before any destructive transition of the destination's storage
begins; the destination ends holding exactly the payload (and type) the
descendant held, keeping its own cell and position; and when the
destination's cells are distinct no cell is destroyed twice. -/
theorem c4_self_move_extracts_before_destroy (dest : NTree) (p : List Nat)
    (res : NTree) (evs : List Ev) (src : NTree)
    (hsrc : dest.getPath? p = some src)
    (hmv : moveFromDescendant dest p = some (res, evs)) :
    evs.head? = some src.rootEv ∧
    evs.tail.all Ev.isDestroy = true ∧
    res = nodeMoveAssign dest src ∧
    ((postIds dest).Nodup → (evs.filterMap Ev.destroyedId).Nodup) := by
  cases dest with
  | leaf i l c v => exact absurd hmv (by simp [moveFromDescendant])
  | branch i ty l c kids =>
    cases p with
    | nil => exact absurd hmv (by simp [moveFromDescendant])
    | cons idx p' =>
      rw [moveFromDescendant] at hmv
      rw [if_neg (by simp)] at hmv
      rw [hsrc] at hmv
      cases src with
      | leaf sid sl sc v' =>
        obtain ⟨hres, hevs⟩ := Prod.mk.injEq .. ▸ Option.some_injective _ hmv
        subst hres hevs
        refine ⟨rfl, all_isDestroy_map _, rfl, fun hnd => ?_⟩
        have h1 : ((Ev.extractVariant sid :: (postIdsList kids).map Ev.destroy).filterMap
            Ev.destroyedId) = postIdsList kids := by
          simp [List.filterMap_cons, Ev.destroyedId, filterMap_destroyedId_map]
        rw [h1]
        have : (postIdsList kids ++ [i]).Nodup := hnd
        exact this.of_append_left
      | branch sid sty sl sc skids =>
        obtain ⟨hres, hevs⟩ := Prod.mk.injEq .. ▸ Option.some_injective _ hmv
        subst hres hevs
        refine ⟨rfl, all_isDestroy_map _, rfl, fun hnd => ?_⟩
        have h1 : ((Ev.extractChildren sid ::
            (postIdsList (emptyAt (idx :: p') (NTree.branch i ty l c kids)).childrenOf).map
              Ev.destroy).filterMap Ev.destroyedId)
            = postIdsList (emptyAt (idx :: p') (NTree.branch i ty l c kids)).childrenOf := by
          simp [List.filterMap_cons, Ev.destroyedId, filterMap_destroyedId_map]
        rw [h1]
        have hsub := emptyAt_postIds_sublist (idx :: p') (NTree.branch i ty l c kids)
        have hndE : (postIds (emptyAt (idx :: p') (NTree.branch i ty l c kids))).Nodup :=
          hnd.sublist hsub
        cases hK : kids[idx]? with
        | none =>
          rw [show emptyAt (idx :: p') (NTree.branch i ty l c kids)
              = NTree.branch i ty l c kids from by simp [emptyAt, hK]] at hndE ⊢
          exact (hndE : (postIdsList kids ++ [i]).Nodup).of_append_left
        | some ch =>
          rw [show emptyAt (idx :: p') (NTree.branch i ty l c kids)
              = NTree.branch i ty l c (kids.set idx (emptyAt p' ch)) from by
            simp [emptyAt, hK]] at hndE ⊢
          exact (hndE : (postIdsList (kids.set idx (emptyAt p' ch)) ++ [i]).Nodup).of_append_left

/-- C4 witness: a concrete two-node tree — the branch at cell 0 move-assigned
from its own leaf child at cell 1 — where the hypotheses evaluate by `rfl`. -/
theorem c4_self_move_witness :
    ([Ev.extractVariant 1, Ev.destroy 1].head?
        = some (NTree.leaf 1 3 4 (.int 7)).rootEv ∧
      [Ev.extractVariant 1, Ev.destroy 1].tail.all Ev.isDestroy = true ∧
      NTree.leaf 0 1 2 (.int 7)
        = nodeMoveAssign (.branch 0 5 1 2 [.leaf 1 3 4 (.int 7)]) (.leaf 1 3 4 (.int 7)) ∧
      ((postIds (NTree.branch 0 5 1 2 [.leaf 1 3 4 (.int 7)])).Nodup →
        ([Ev.extractVariant 1, Ev.destroy 1].filterMap Ev.destroyedId).Nodup)) :=
  c4_self_move_extracts_before_destroy
    (.branch 0 5 1 2 [.leaf 1 3 4 (.int 7)]) [0]
    (.leaf 0 1 2 (.int 7)) [Ev.extractVariant 1, Ev.destroy 1]
    (.leaf 1 3 4 (.int 7)) rfl rfl

end LiquidCpp
